import Mathlib

/-
Verification development for tarbgz.py: random access to TAR archives
compressed with BGZF, via an external index.

The embedding models:
  * BgzfWrapper: the forward-seek adapter over a sequential block
    decompression reader (read / tell / seek), with the underlying reader
    abstracted as a count of remaining decompressed bytes;
  * IndexEntry / IndexNode / Index: the hierarchical index tree with
    insert, readdir and get, operating on lists of path components
    (the per-method call to atomize_path is modelled separately);
  * atomize_path: the recursive os.path.split-based component splitter,
    with explicit fuel so that runaway recursion is observable as none;
  * the index build loop of main (entry creation and offset threading),
    with the external tar parser abstracted as a list of member records
    and the codec coordinate abstracted as a function of the
    decompressed offset;
  * list_directory: the listing logic of the find branch of main.

Paths are lists of characters; path arguments of the tree operations are
lists of components, i.e. lists of lists of characters.
-/

/-- Entry for a file in the index, mirroring IndexEntry in tarbgz.py: BGZF
virtual offset, real (decompressed) offset, file size, and the virtual offset
of the next record. -/
structure IndexEntry where
  virtual_offset : Nat
  real_offset : Nat
  size : Nat
  next_virtual_offset : Nat
  deriving DecidableEq

/-- Node in the index tree, mirroring IndexNode in tarbgz.py: a dict of
children (modelled as an association list in insertion order) and an optional
IndexEntry for the file or directory the node represents. -/
inductive IndexNode : Type where
  | mk (children : List (List Char × IndexNode)) (entry : Option IndexEntry) : IndexNode

/-- Children dict of a node. -/
def IndexNode.children : IndexNode → List (List Char × IndexNode)
  | .mk ch _ => ch

/-- Optional entry of a node. -/
def IndexNode.entry : IndexNode → Option IndexEntry
  | .mk _ e => e

instance : Inhabited IndexNode := ⟨IndexNode.mk [] none⟩

@[simp] lemma IndexNode.children_mk (ch : List (List Char × IndexNode))
    (e : Option IndexEntry) : (IndexNode.mk ch e).children = ch := rfl

@[simp] lemma IndexNode.entry_mk (ch : List (List Char × IndexNode))
    (e : Option IndexEntry) : (IndexNode.mk ch e).entry = e := rfl

/-- Dict lookup on the children association list (IndexNode.get_child guarded
by IndexNode.has_child in tarbgz.py). -/
def lookupChild : List (List Char × IndexNode) → List Char → Option IndexNode
  | [], _ => none
  | (k, v) :: rest, name => if k = name then some v else lookupChild rest name

/-- Dict assignment on the children association list: replace the binding if
the key is present, otherwise append a new binding. -/
def setChild : List (List Char × IndexNode) → List Char → IndexNode →
    List (List Char × IndexNode)
  | [], name, node => [(name, node)]
  | (k, v) :: rest, name, node =>
    if k = name then (k, node) :: rest else (k, v) :: setChild rest name node

/-- The child advanced into by the insert loop of Index.insert: the existing
child if present, otherwise the fresh empty node made by make_child. -/
def childOrEmpty (ch : List (List Char × IndexNode)) (name : List Char) :
    IndexNode :=
  match lookupChild ch name with
  | some c => c
  | none => IndexNode.mk [] none

/-- The loop of Index.insert in tarbgz.py, over an already atomized path:
walk or create intermediate nodes, then set the entry on the terminal node. -/
def insertParts : IndexNode → List (List Char) → IndexEntry → IndexNode
  | .mk ch _, [], entry => .mk ch (some entry)
  | .mk ch e0, part :: rest, entry =>
    .mk (setChild ch part (insertParts (childOrEmpty ch part) rest entry)) e0

/-- The loop of Index.readdir in tarbgz.py, over an already atomized path:
walk components, failing (none, the RuntimeError) when a component is absent,
and return the child names of the terminal node. -/
def readdirParts : IndexNode → List (List Char) → Option (List (List Char))
  | n, [] => some (n.children.map Prod.fst)
  | n, part :: rest =>
    match lookupChild n.children part with
    | none => none
    | some c => readdirParts c rest

/-- The loop of Index.get in tarbgz.py, over an already atomized path: walk
components, returning none when a component is absent, and return the entry of
the terminal node. -/
def getParts : IndexNode → List (List Char) → Option IndexEntry
  | n, [] => n.entry
  | n, part :: rest =>
    match lookupChild n.children part with
    | none => none
    | some c => getParts c rest

/-- The shared walk of the tree operations: resolve a component list to the
node it names, or none when some component is absent. -/
def resolveParts : IndexNode → List (List Char) → Option IndexNode
  | n, [] => some n
  | n, part :: rest =>
    match lookupChild n.children part with
    | none => none
    | some c => resolveParts c rest

/-- Index of an archive, mirroring Index in tarbgz.py: a root IndexNode. -/
structure Index where
  root : IndexNode

/-- Index.insert of tarbgz.py over an atomized path. -/
def Index.insert (i : Index) (parts : List (List Char)) (entry : IndexEntry) :
    Index :=
  ⟨insertParts i.root parts entry⟩

/-- Index.readdir of tarbgz.py over an atomized path. -/
def Index.readdir (i : Index) (parts : List (List Char)) :
    Option (List (List Char)) :=
  readdirParts i.root parts

/-- Index.get of tarbgz.py over an atomized path. -/
def Index.get (i : Index) (parts : List (List Char)) : Option IndexEntry :=
  getParts i.root parts

/-- POSIX os.path.split as used by Index.atomize_path: the tail is the part
after the last slash, the head is everything up to and including the last
slash, with trailing slashes stripped unless the head consists entirely of
slashes. -/
def splitPath (p : List Char) : List Char × List Char :=
  let tail := (p.reverse.takeWhile (fun c => c != '/')).reverse
  let headRaw := p.take (p.length - tail.length)
  let headStr :=
    if headRaw.all (fun c => c == '/') then headRaw
    else (headRaw.reverse.dropWhile (fun c => c == '/')).reverse
  (headStr, tail)

/-- Index.atomize_path of tarbgz.py: recursively split off the last path
component with os.path.split, ignoring empty components. The Python recursion
is unbounded, so the embedding takes explicit fuel; none means the recursion
did not finish within the given fuel, and a result of none at every fuel is a
non-terminating call (in Python, a RuntimeError from exceeding the recursion
limit). -/
def atomize_path : Nat → List Char → Option (List (List Char))
  | 0, _ => none
  | fuel + 1, p =>
    let ht := splitPath p
    let sub : Option (List (List Char)) :=
      if ht.1 = [] then some [] else atomize_path fuel ht.1
    match sub with
    | none => none
    | some parts => some (if ht.2 = [] then parts else parts ++ [ht.2])

/-- Forward-seek adapter state, mirroring BgzfWrapper in tarbgz.py: the
tracked decompressed offset, and the wrapped BgzfReader abstracted as the
number of decompressed bytes it can still produce. -/
structure BgzfWrapper where
  offset : Nat
  remaining : Nat
  deriving DecidableEq

/-- BgzfWrapper.read: forward to the underlying reader (which yields at most
the requested number of bytes and fewer at end of stream), advance the offset
by the number of bytes actually produced, and report that count. -/
def BgzfWrapper.read (w : BgzfWrapper) (size : Nat) : Nat × BgzfWrapper :=
  let k := min size w.remaining
  (k, ⟨w.offset + k, w.remaining - k⟩)

/-- BgzfWrapper.tell: the tracked decompressed offset. -/
def BgzfWrapper.tell (w : BgzfWrapper) : Nat := w.offset

/-- Seek origins, mirroring os.SEEK_SET, os.SEEK_CUR and os.SEEK_END. -/
inductive Whence : Type where
  | set
  | cur
  | seekEnd
  deriving DecidableEq

/-- Errors raised by BgzfWrapper.seek: the failed assertions for an
end-relative seek (UnsupportedOperation) and for a negative forward distance
(InvalidSeek). -/
inductive SeekError : Type where
  | unsupportedOperation
  | invalidSeek
  deriving DecidableEq

/-- The read-and-discard loop of BgzfWrapper.seek: read up to the remaining
distance, stop when a read returns 0 bytes or the distance is consumed. -/
def BgzfWrapper.seekLoop (w : BgzfWrapper) (distance : Nat) : BgzfWrapper :=
  if 0 < distance then
    if (w.read distance).1 = 0 then (w.read distance).2
    else BgzfWrapper.seekLoop (w.read distance).2 (distance - (w.read distance).1)
  else w
termination_by distance
decreasing_by
  simp [BgzfWrapper.read] at *
  omega

/-- BgzfWrapper.seek of tarbgz.py: compute the forward distance (absolute for
origin set, relative otherwise), reject end-relative seeks and negative
distances (leaving the adapter unchanged, as the assertion fires before any
read), then consume the distance with the read loop. -/
def BgzfWrapper.seek (w : BgzfWrapper) (target : Int) (whence : Whence) :
    Except SeekError Unit × BgzfWrapper :=
  let distance : Int :=
    match whence with
    | .set => target - (w.offset : Int)
    | _ => target
  match whence with
  | .seekEnd => (Except.error SeekError.unsupportedOperation, w)
  | _ =>
    if distance < 0 then (Except.error SeekError.invalidSeek, w)
    else (Except.ok (), BgzfWrapper.seekLoop w distance.toNat)

/-- One member record as reported by the external tar parser during the build
loop of main: the member's path (already atomized), its size, and the
decompressed offset of the next record (archive_tar.offset). -/
structure TarMember where
  name : List (List Char)
  size : Nat
  next_offset : Nat
  deriving DecidableEq

/-- The index build loop of main in tarbgz.py. The codec is abstracted as
coord, mapping a decompressed offset to the BGZF virtual offset of the reader
positioned there. State per iteration: the index so far, the virtual offset
bgzf_off and decompressed offset tar_off of the current record. Each member
seeks to the next record, creates an IndexEntry bracketing the member, inserts
it, and threads the refreshed offsets. Returns the final index and the list of
entries in creation order. -/
def buildLoop (coord : Nat → Nat) :
    Index → Nat → Nat → List TarMember → Index × List IndexEntry
  | idx, _, _, [] => (idx, [])
  | idx, bgzf_off, tar_off, m :: rest =>
    let c1 := coord m.next_offset
    let entry : IndexEntry := ⟨bgzf_off, tar_off, m.size, c1⟩
    let restRes := buildLoop coord (Index.insert idx m.name entry) c1
      m.next_offset rest
    (restRes.1, entry :: restRes.2)

/-- The entries created by the build loop, started like main does: empty
index, initial decompressed offset 0, initial virtual offset read from the
reader before the tar parser is opened. -/
def buildEntries (coord : Nat → Nat) (members : List TarMember) :
    List IndexEntry :=
  (buildLoop coord ⟨IndexNode.mk [] none⟩ (coord 0) 0 members).2

/-- The next-record offsets reported by the parser are nondecreasing from the
given starting decompressed offset: what the forward-only wrapper seek
(assert distance greater than or equal to 0) requires of the archive. -/
def offsetsMonotone : Nat → List TarMember → Prop
  | _, [] => True
  | t, m :: rest => t ≤ m.next_offset ∧ offsetsMonotone m.next_offset rest

/-- Directory listing as in the find branch of main in tarbgz.py: for each
child name of the listed directory, report the joined path and a size that
starts at 0 and is replaced by the entry's size when the joined path has an
entry in the index. -/
def list_directory (i : Index) (parts : List (List Char)) :
    Option (List (List (List Char) × Nat)) :=
  (Index.readdir i parts).map (fun names => names.map (fun basename =>
    (parts ++ [basename],
      (Index.get i (parts ++ [basename])).elim 0 IndexEntry.size)))

/-- Specification-side variant of list_directory, following the words of the
spec: report, for each child, its name and its entry's size when it has an
entry, and an absent size (none) for children without entries. -/
def list_directory_absent (i : Index) (parts : List (List Char)) :
    Option (List (List (List Char) × Option Nat)) :=
  (Index.readdir i parts).map (fun names => names.map (fun basename =>
    (parts ++ [basename], (Index.get i (parts ++ [basename])).map
      IndexEntry.size)))

/-- Example tree used to exercise the insertion frame properties concretely:
a root with a file child x carrying an entry, and an entry-less directory
child d whose only child s is also entry-less. -/
def frameWitnessRoot : IndexNode :=
  IndexNode.mk
    [(['x'], IndexNode.mk [] (some ⟨1, 2, 3, 4⟩)),
      (['d'], IndexNode.mk [(['s'], IndexNode.mk [] none)] none)] none

/-- Looking up the key just set finds the new node. -/
lemma lookupChild_setChild_self (ch : List (List Char × IndexNode))
    (k : List Char) (x : IndexNode) :
    lookupChild (setChild ch k x) k = some x := by
  induction ch with
  | nil => simp [setChild, lookupChild]
  | cons p rest ih =>
    obtain ⟨k0, v0⟩ := p
    by_cases h : k0 = k
    · simp [setChild, lookupChild, h]
    · simp [setChild, lookupChild, h, ih]

/-- Setting one key leaves lookups of other keys unchanged. -/
lemma lookupChild_setChild_ne (ch : List (List Char × IndexNode))
    (k k' : List Char) (x : IndexNode) (h : k ≠ k') :
    lookupChild (setChild ch k x) k' = lookupChild ch k' := by
  induction ch with
  | nil => simp [setChild, lookupChild, h]
  | cons p rest ih =>
    obtain ⟨k0, v0⟩ := p
    by_cases h0 : k0 = k
    · subst h0
      simp [setChild, lookupChild, h]
    · simp only [setChild, lookupChild, if_neg h0]
      by_cases h1 : k0 = k'
      · simp [h1]
      · simp [h1, ih]

/-- The key just set is among the child names. -/
lemma mem_map_fst_setChild (ch : List (List Char × IndexNode))
    (k : List Char) (x : IndexNode) :
    k ∈ (setChild ch k x).map Prod.fst := by
  induction ch with
  | nil => simp [setChild]
  | cons p rest ih =>
    obtain ⟨k0, v0⟩ := p
    by_cases h : k0 = k
    · simp [setChild, h]
    · simp only [setChild, if_neg h, List.map_cons, List.mem_cons]
      exact Or.inr ih

/-- Getting the path just inserted yields the inserted entry. -/
lemma getParts_insertParts_self (parts : List (List Char)) :
    ∀ (n : IndexNode) (e : IndexEntry),
      getParts (insertParts n parts e) parts = some e := by
  induction parts with
  | nil =>
    intro n e
    obtain ⟨ch, e0⟩ := n
    simp [insertParts, getParts]
  | cons a rest ih =>
    intro n e
    obtain ⟨ch, e0⟩ := n
    simp [insertParts, getParts, lookupChild_setChild_self, ih]

/-- Index.get is the shared walk followed by reading the terminal entry. -/
lemma getParts_eq_resolveParts (parts : List (List Char)) :
    ∀ n : IndexNode,
      getParts n parts = (resolveParts n parts).bind IndexNode.entry := by
  induction parts with
  | nil => intro n; simp [getParts, resolveParts]
  | cons a rest ih =>
    intro n
    simp only [getParts, resolveParts]
    cases lookupChild n.children a with
    | none => simp
    | some c => simp [ih]

/-- Index.readdir is the shared walk followed by listing the child names. -/
lemma readdirParts_eq_resolveParts (parts : List (List Char)) :
    ∀ n : IndexNode,
      readdirParts n parts =
        (resolveParts n parts).map (fun t => t.children.map Prod.fst) := by
  induction parts with
  | nil => intro n; simp [readdirParts, resolveParts]
  | cons a rest ih =>
    intro n
    simp only [readdirParts, resolveParts]
    cases lookupChild n.children a with
    | none => simp
    | some c => simp [ih]

/-- Walking a concatenated path is walking the first part, then getting the
rest from the node it resolves to. -/
lemma getParts_append (parts q : List (List Char)) :
    ∀ n : IndexNode,
      getParts n (parts ++ q) =
        (resolveParts n parts).elim none (fun t => getParts t q) := by
  induction parts with
  | nil => intro n; simp [resolveParts]
  | cons a rest ih =>
    intro n
    simp only [List.cons_append, getParts, resolveParts]
    cases lookupChild n.children a with
    | none => simp
    | some c => simp [ih]

/-- Getting any path in the fresh empty node fails. -/
lemma getParts_empty (q : List (List Char)) :
    getParts (IndexNode.mk [] none) q = none := by
  cases q with
  | nil => simp [getParts]
  | cons b rest => simp [getParts, lookupChild]

/-- Resolving any path in the fresh empty node reaches no children. -/
lemma resolveParts_empty_children (q : List (List Char)) :
    (resolveParts (IndexNode.mk [] none) q).elim [] IndexNode.children
      = [] := by
  cases q with
  | nil => simp [resolveParts]
  | cons b rest => simp [resolveParts, lookupChild]

/-- After an insert, listing any proper ancestor of the inserted path succeeds
and shows the next path component as a child. -/
lemma readdirParts_insertParts_take (parts : List (List Char)) :
    ∀ (n : IndexNode) (e : IndexEntry) (k : Nat) (h : k < parts.length),
      ∃ names, readdirParts (insertParts n parts e) (parts.take k)
          = some names ∧ parts.get ⟨k, h⟩ ∈ names := by
  induction parts with
  | nil =>
    intro n e k h
    exact absurd h (by simp)
  | cons a rest ih =>
    intro n e k h
    obtain ⟨ch, e0⟩ := n
    cases k with
    | zero =>
      refine ⟨((setChild ch a
        (insertParts (childOrEmpty ch a) rest e)).map Prod.fst), ?_, ?_⟩
      · simp [insertParts, readdirParts]
      · simpa using mem_map_fst_setChild ch a _
    | succ k0 =>
      have hk0 : k0 < rest.length := by simpa using h
      obtain ⟨names, hnames, hmem⟩ := ih (childOrEmpty ch a) e k0 hk0
      refine ⟨names, ?_, ?_⟩
      · simp [insertParts, readdirParts, lookupChild_setChild_self, hnames]
      · simpa using hmem

/-- Inserting at one path leaves get at every other path unchanged. -/
lemma getParts_insertParts_frame (parts : List (List Char)) :
    ∀ (n : IndexNode) (e : IndexEntry) (q : List (List Char)), q ≠ parts →
      getParts (insertParts n parts e) q = getParts n q := by
  induction parts with
  | nil =>
    intro n e q hq
    obtain ⟨ch, e0⟩ := n
    cases q with
    | nil => exact absurd rfl hq
    | cons b q0 => simp [insertParts, getParts]
  | cons a rest ih =>
    intro n e q hq
    obtain ⟨ch, e0⟩ := n
    cases q with
    | nil => simp [insertParts, getParts]
    | cons b q0 =>
      by_cases hab : a = b
      · subst hab
        have hq0 : q0 ≠ rest := by
          intro hcon
          exact hq (by rw [hcon])
        simp only [insertParts, getParts, IndexNode.children_mk,
          lookupChild_setChild_self]
        cases hl : lookupChild ch a with
        | some c =>
          rw [childOrEmpty, hl]
          exact ih c e q0 hq0
        | none =>
          rw [childOrEmpty, hl]
          rw [ih (IndexNode.mk [] none) e q0 hq0]
          simp [getParts_empty]
      · simp only [insertParts, getParts, IndexNode.children_mk,
          lookupChild_setChild_ne _ _ _ _ hab]

/-- After an insert, the inserted path resolves to a node carrying the new
entry and exactly the children the path's node had before (no children when
the path, or part of it, did not exist yet). -/
lemma resolveParts_insertParts_self (parts : List (List Char)) :
    ∀ (n : IndexNode) (e : IndexEntry),
      resolveParts (insertParts n parts e) parts =
        some (IndexNode.mk
          ((resolveParts n parts).elim [] IndexNode.children) (some e)) := by
  induction parts with
  | nil =>
    intro n e
    obtain ⟨ch, e0⟩ := n
    simp [insertParts, resolveParts]
  | cons a rest ih =>
    intro n e
    obtain ⟨ch, e0⟩ := n
    simp only [insertParts, resolveParts, IndexNode.children_mk,
      lookupChild_setChild_self]
    cases hl : lookupChild ch a with
    | some c =>
      rw [childOrEmpty, hl]
      exact ih c e
    | none =>
      rw [childOrEmpty, hl]
      rw [ih (IndexNode.mk [] none) e]
      simp [resolveParts_empty_children]

/-- Inserting at one path leaves the resolved node, and with it the whole
subtree, at every path that is not an initial segment of the inserted path
(neither the path itself nor one of its ancestors) exactly unchanged. -/
lemma resolveParts_insertParts_frame (parts : List (List Char)) :
    ∀ (n : IndexNode) (e : IndexEntry) (q : List (List Char)),
      parts.take q.length ≠ q →
      resolveParts (insertParts n parts e) q = resolveParts n q := by
  induction parts with
  | nil =>
    intro n e q hq
    obtain ⟨ch, e0⟩ := n
    cases q with
    | nil => exact absurd rfl hq
    | cons b q0 => simp [insertParts, resolveParts]
  | cons a rest ih =>
    intro n e q hq
    obtain ⟨ch, e0⟩ := n
    cases q with
    | nil => exact absurd rfl hq
    | cons b q0 =>
      by_cases hab : a = b
      · subst hab
        have hq0 : rest.take q0.length ≠ q0 := by
          intro hcon
          apply hq
          simp [List.take_succ_cons, hcon]
        simp only [insertParts, resolveParts, IndexNode.children_mk,
          lookupChild_setChild_self]
        cases hl : lookupChild ch a with
        | some c =>
          rw [childOrEmpty, hl]
          exact ih c e q0 hq0
        | none =>
          rw [childOrEmpty, hl]
          rw [ih (IndexNode.mk [] none) e q0 hq0]
          cases q0 with
          | nil => exact absurd rfl hq0
          | cons c q1 => simp [resolveParts, lookupChild]
      · simp only [insertParts, resolveParts, IndexNode.children_mk,
          lookupChild_setChild_ne _ _ _ _ hab]

/-- Inserting at one path leaves the child listing at every path that is not
an initial segment of the inserted path unchanged. -/
lemma readdirParts_insertParts_frame (parts : List (List Char))
    (n : IndexNode) (e : IndexEntry) (q : List (List Char))
    (hq : parts.take q.length ≠ q) :
    readdirParts (insertParts n parts e) q = readdirParts n q := by
  rw [readdirParts_eq_resolveParts, readdirParts_eq_resolveParts,
    resolveParts_insertParts_frame parts n e q hq]

/-- After an insert, every already existing proper ancestor of the inserted
path resolves to a node that keeps its entry and keeps its children dict
except for the binding of the next inserted component, which is set; every
other child binding, with its name and subtree, is untouched. -/
lemma resolveParts_insertParts_take_set (parts : List (List Char)) :
    ∀ (n : IndexNode) (e : IndexEntry) (k : Nat) (h : k < parts.length)
      (t : IndexNode), resolveParts n (parts.take k) = some t →
      ∃ sub, resolveParts (insertParts n parts e) (parts.take k)
        = some (IndexNode.mk
            (setChild t.children (parts.get ⟨k, h⟩) sub) t.entry) := by
  induction parts with
  | nil =>
    intro n e k h
    exact absurd h (by simp)
  | cons a rest ih =>
    intro n e k h t ht
    obtain ⟨ch, e0⟩ := n
    cases k with
    | zero =>
      simp only [List.take_zero, resolveParts, Option.some.injEq] at ht
      subst ht
      exact ⟨insertParts (childOrEmpty ch a) rest e, rfl⟩
    | succ k0 =>
      have hk0 : k0 < rest.length := by simpa using h
      rw [List.take_succ_cons] at ht
      cases hl : lookupChild ch a with
      | none =>
        simp only [resolveParts, IndexNode.children_mk, hl] at ht
        exact absurd ht (by simp)
      | some c =>
        simp only [resolveParts, IndexNode.children_mk, hl] at ht
        obtain ⟨sub, hsub⟩ := ih c e k0 hk0 t ht
        refine ⟨sub, ?_⟩
        rw [List.take_succ_cons]
        simp only [insertParts, resolveParts, IndexNode.children_mk,
          lookupChild_setChild_self]
        rw [childOrEmpty, hl]
        exact hsub

/-- Setting one key never removes a name from the children dict. -/
lemma mem_map_fst_setChild_of_mem (ch : List (List Char × IndexNode))
    (k b : List Char) (x : IndexNode) (hb : b ∈ ch.map Prod.fst) :
    b ∈ (setChild ch k x).map Prod.fst := by
  induction ch with
  | nil => simp at hb
  | cons p rest ih =>
    obtain ⟨k0, v0⟩ := p
    by_cases h : k0 = k
    · subst h
      simp only [setChild, if_pos rfl, List.map_cons, List.mem_cons]
      simpa using hb
    · simp only [setChild, if_neg h, List.map_cons, List.mem_cons] at hb ⊢
      rcases hb with hb1 | hb2
      · exact Or.inl hb1
      · exact Or.inr (ih hb2)

/-- After an insert, listing an already listable proper ancestor of the
inserted path still succeeds and still shows every name it showed before:
no child ever disappears from an ancestor's listing. -/
lemma readdirParts_insertParts_take_superset (parts : List (List Char))
    (n : IndexNode) (e : IndexEntry) (k : Nat) (h : k < parts.length)
    (names : List (List Char))
    (hr : readdirParts n (parts.take k) = some names) :
    ∃ names', readdirParts (insertParts n parts e) (parts.take k)
      = some names' ∧ ∀ b ∈ names, b ∈ names' := by
  rw [readdirParts_eq_resolveParts] at hr
  cases ht : resolveParts n (parts.take k) with
  | none =>
    rw [ht] at hr
    exact absurd hr (by simp)
  | some t =>
    rw [ht] at hr
    simp only [Option.map_some', Option.some.injEq] at hr
    obtain ⟨sub, hsub⟩ := resolveParts_insertParts_take_set parts n e k h t ht
    refine ⟨(setChild t.children (parts.get ⟨k, h⟩) sub).map Prod.fst, ?_, ?_⟩
    · rw [readdirParts_eq_resolveParts, hsub]
      simp
    · intro b hb
      rw [← hr] at hb
      exact mem_map_fst_setChild_of_mem t.children (parts.get ⟨k, h⟩) b sub hb

/-- The read-and-discard loop advances the offset by the requested distance,
or by the bytes the stream still has, whichever is smaller. -/
lemma seekLoop_eq (distance : Nat) :
    ∀ w : BgzfWrapper,
      BgzfWrapper.seekLoop w distance =
        ⟨w.offset + min distance w.remaining,
          w.remaining - min distance w.remaining⟩ := by
  induction distance using Nat.strong_induction_on with
  | _ d ih =>
    intro w
    obtain ⟨off, rem⟩ := w
    rw [BgzfWrapper.seekLoop]
    by_cases hd : 0 < d
    · simp only [hd, if_true]
      by_cases hr : (BgzfWrapper.read ⟨off, rem⟩ d).1 = 0
      · simp only [hr, if_true]
        simp only [BgzfWrapper.read] at hr ⊢
      · simp only [hr, if_false]
        have hk : 0 < min d rem := by
          simp only [BgzfWrapper.read] at hr
          omega
        have hlt : d - (BgzfWrapper.read ⟨off, rem⟩ d).1 < d := by
          simp only [BgzfWrapper.read]
          omega
        rw [ih _ hlt]
        simp only [BgzfWrapper.read, BgzfWrapper.mk.injEq]
        constructor <;> omega
    · simp only [hd, if_false]
      have hd0 : d = 0 := by omega
      subst hd0
      simp

/-- Path splitting never finishes on the all-slash path consisting of one
slash: os.path.split maps it to itself as head, so the recursion loops. -/
lemma atomize_path_slash_none : ∀ fuel, atomize_path fuel ['/'] = none := by
  intro fuel
  induction fuel with
  | zero => rfl
  | succ n ih =>
    have hsplit : splitPath ['/'] = (['/'], []) := by decide
    simp [atomize_path, hsplit, ih]

/-- Path splitting never finishes on a two-character absolute path: its head
is the single slash, on which the recursion loops. -/
lemma atomize_path_slash_a_none : ∀ fuel, atomize_path fuel ['/', 'a'] = none := by
  intro fuel
  cases fuel with
  | zero => rfl
  | succ n =>
    have hsplit : splitPath ['/', 'a'] = (['/'], ['a']) := by decide
    simp [atomize_path, hsplit, atomize_path_slash_none]

/-- Entry-sequence invariant of the build loop, from any starting record
offset: consecutive entries chain through the recorded next coordinate, every
entry's next coordinate is at least its start coordinate, and the first entry
starts at the coordinate of the starting offset. -/
lemma buildLoop_entries_invariant (coord : Nat → Nat) (hm : Monotone coord) :
    ∀ (members : List TarMember) (idx : Index) (t : Nat),
      offsetsMonotone t members →
      List.Chain' (fun a b => b.virtual_offset = a.next_virtual_offset)
          (buildLoop coord idx (coord t) t members).2 ∧
        (∀ e ∈ (buildLoop coord idx (coord t) t members).2,
          e.virtual_offset ≤ e.next_virtual_offset) ∧
        (∀ e, ((buildLoop coord idx (coord t) t members).2).head? = some e →
          e.virtual_offset = coord t) := by
  intro members
  induction members with
  | nil =>
    intro idx t _
    simp [buildLoop]
  | cons m rest ih =>
    intro idx t ho
    obtain ⟨ihc, ihle, ihhead⟩ := ih (Index.insert idx m.name
      ⟨coord t, t, m.size, coord m.next_offset⟩) m.next_offset ho.2
    have hunf : (buildLoop coord idx (coord t) t (m :: rest)).2
        = (⟨coord t, t, m.size, coord m.next_offset⟩ : IndexEntry) ::
          (buildLoop coord (Index.insert idx m.name
              ⟨coord t, t, m.size, coord m.next_offset⟩)
            (coord m.next_offset) m.next_offset rest).2 := by
      simp [buildLoop]
    rw [hunf]
    refine ⟨?_, ?_, ?_⟩
    · rw [List.chain'_cons']
      refine ⟨fun b hb => ?_, ihc⟩
      exact ihhead b hb
    · intro e he
      rcases List.mem_cons.mp he with he1 | he2
      · subst he1
        exact hm ho.1
      · exact ihle e he2
    · intro e he
      simp only [List.head?_cons, Option.some.injEq] at he
      subst he
      rfl

/-- C1: the IndexEntry records created by the build loop are chained: each
consecutive pair in build order satisfies that the later entry's start
coordinate equals the earlier entry's next coordinate; every entry's next
coordinate is greater than or equal to its start coordinate under the codec's
ordering; and the first entry's start coordinate is the initial codec
coordinate recorded before parsing began. The codec is abstracted as a
monotone coordinate function of the decompressed offset, and the parser's
next-record offsets are nondecreasing, as the wrapper's forward-only seek
assertion requires. -/
theorem build_entries_chained (coord : Nat → Nat) (members : List TarMember)
    (hm : Monotone coord) (ho : offsetsMonotone 0 members) :
    List.Chain' (fun a b => b.virtual_offset = a.next_virtual_offset)
        (buildEntries coord members) ∧
      (∀ e ∈ buildEntries coord members,
        e.virtual_offset ≤ e.next_virtual_offset) ∧
      (∀ e, (buildEntries coord members).head? = some e →
        e.virtual_offset = coord 0) :=
  buildLoop_entries_invariant coord hm members ⟨IndexNode.mk [] none⟩ 0 ho

/-- Witness for C1 at a concrete coordinate function and member list. -/
theorem build_entries_chained_witness :
    Monotone (fun n : Nat => n) ∧
      offsetsMonotone 0 [⟨[['a']], 10, 100⟩, ⟨[['b']], 5, 200⟩] ∧
      List.Chain' (fun a b => b.virtual_offset = a.next_virtual_offset)
        (buildEntries (fun n => n) [⟨[['a']], 10, 100⟩, ⟨[['b']], 5, 200⟩]) := by
  have hm : Monotone (fun n : Nat => n) := monotone_id
  have ho : offsetsMonotone 0 [⟨[['a']], 10, 100⟩, ⟨[['b']], 5, 200⟩] := by
    exact ⟨by norm_num, by norm_num, trivial⟩
  exact ⟨hm, ho, (build_entries_chained (fun n => n) _ hm ho).1⟩

/-- C2: performing insert(path, e1) then insert(path, e2) on an Index leaves
only the later entry at that path: a subsequent get(path) returns e2. -/
theorem insert_twice_get_last (i : Index) (parts : List (List Char))
    (e1 e2 : IndexEntry) :
    Index.get (Index.insert (Index.insert i parts e1) parts e2) parts
      = some e2 :=
  getParts_insertParts_self parts _ e2

/-- C3: get walks the path components and returns none exactly when some
component of the path is absent from the tree (the shared walk resolves to
none) or the terminal node has no entry; otherwise it returns the entry
stored at the terminal node. It is a total function into Option, so it never
raises. -/
theorem get_walks_components (i : Index) (parts : List (List Char)) :
    Index.get i parts = (resolveParts i.root parts).bind IndexNode.entry :=
  getParts_eq_resolveParts parts i.root

/-- C4: readdir fails with NotFound (none, the RuntimeError) exactly when
some path component along the way is absent from the tree; otherwise it
returns exactly the child names of the terminal node, in the dict's
unspecified order. -/
theorem readdir_walks_components (i : Index) (parts : List (List Char)) :
    Index.readdir i parts =
      (resolveParts i.root parts).map (fun t => t.children.map Prod.fst) :=
  readdirParts_eq_resolveParts parts i.root

/-- C5: after insert(path, entry), for every proper ancestor of the inserted
path (every take of fewer components than the whole), listing that ancestor
succeeds and includes the immediately following path component as a child
name. -/
theorem insert_vivifies_ancestors (i : Index) (parts : List (List Char))
    (e : IndexEntry) (k : Nat) (h : k < parts.length) :
    ∃ names, Index.readdir (Index.insert i parts e) (parts.take k)
        = some names ∧ parts.get ⟨k, h⟩ ∈ names :=
  readdirParts_insertParts_take parts i.root e k h

/-- Witness for C5 at a concrete tree, path and ancestor depth. -/
theorem insert_vivifies_ancestors_witness :
    1 < ([['a'], ['b']] : List (List Char)).length ∧
      ∃ names,
        Index.readdir
            (Index.insert ⟨IndexNode.mk [] none⟩ [['a'], ['b']] ⟨1, 2, 3, 4⟩)
            (([['a'], ['b']] : List (List Char)).take 1)
          = some names ∧
          ([['a'], ['b']] : List (List Char)).get ⟨1, by norm_num⟩ ∈ names :=
  ⟨by norm_num,
    insert_vivifies_ancestors ⟨IndexNode.mk [] none⟩ [['a'], ['b']]
      ⟨1, 2, 3, 4⟩ 1 (by norm_num)⟩

/-- C6, behavior of the code at the failing input: on the absolute path /a/b
the component splitter never terminates, whatever the fuel, because
os.path.split reduces the head to the all-slash path consisting of one slash,
which os.path.split maps to itself; in Python the recursion exceeds the
recursion limit instead of returning the components a, b. On the equivalent
relative spellings a/b, a//b and a/b/ the splitter does return exactly those
two components. -/
theorem atomize_path_diverges_on_absolute :
    (∀ fuel, atomize_path fuel ['/', 'a', '/', 'b'] = none) ∧
      atomize_path 5 ['a', '/', 'b'] = some [['a'], ['b']] ∧
      atomize_path 5 ['a', '/', '/', 'b'] = some [['a'], ['b']] ∧
      atomize_path 5 ['a', '/', 'b', '/'] = some [['a'], ['b']] := by
  refine ⟨?_, by decide, by decide, by decide⟩
  intro fuel
  cases fuel with
  | zero => rfl
  | succ n =>
    have hsplit : splitPath ['/', 'a', '/', 'b'] = (['/', 'a'], ['b']) := by
      decide
    simp [atomize_path, hsplit, atomize_path_slash_a_none]

/-- C7: seek with origin end fails with UnsupportedOperation for every target,
and seek with origin start to a target strictly behind the current offset, or
with origin current and a negative distance, fails with InvalidSeek; in every
failure case the adapter state (hence its offset) is returned unchanged,
since the assertion fires before any read happens. -/
theorem seek_rejects_end_and_backward (w : BgzfWrapper) :
    (∀ target : Int, BgzfWrapper.seek w target Whence.seekEnd
        = (Except.error SeekError.unsupportedOperation, w)) ∧
      (∀ target : Int, target < (w.offset : Int) →
        BgzfWrapper.seek w target Whence.set
          = (Except.error SeekError.invalidSeek, w)) ∧
      (∀ dist : Int, dist < 0 →
        BgzfWrapper.seek w dist Whence.cur
          = (Except.error SeekError.invalidSeek, w)) := by
  refine ⟨fun t => rfl, fun t ht => ?_, fun d hd => ?_⟩
  · simp only [BgzfWrapper.seek]
    rw [if_pos (by omega)]
  · simp only [BgzfWrapper.seek]
    rw [if_pos hd]

/-- Witness for C7 at a concrete adapter state and targets. -/
theorem seek_rejects_end_and_backward_witness :
    BgzfWrapper.seek ⟨5, 7⟩ 2 Whence.seekEnd
        = (Except.error SeekError.unsupportedOperation, ⟨5, 7⟩) ∧
      (2 : Int) < ((5 : Nat) : Int) ∧
      BgzfWrapper.seek ⟨5, 7⟩ 2 Whence.set
        = (Except.error SeekError.invalidSeek, ⟨5, 7⟩) ∧
      (-1 : Int) < 0 ∧
      BgzfWrapper.seek ⟨5, 7⟩ (-1) Whence.cur
        = (Except.error SeekError.invalidSeek, ⟨5, 7⟩) :=
  ⟨(seek_rejects_end_and_backward ⟨5, 7⟩).1 2, by norm_num,
    (seek_rejects_end_and_backward ⟨5, 7⟩).2.1 2 (by norm_num), by norm_num,
    (seek_rejects_end_and_backward ⟨5, 7⟩).2.2 (-1) (by norm_num)⟩

/-- C8: an absolute forward seek consumes bytes by reading and discarding;
when the stream has fewer remaining bytes than the distance, the loop stops
at the read that returns 0 bytes, without error, leaving tell() at the
stream's end (offset plus remaining) rather than at the requested target;
when the stream has enough bytes, it stops with tell() exactly at the
requested target. -/
theorem seek_forward_reaches_target_or_eof (w : BgzfWrapper) (target : Nat)
    (h : w.offset ≤ target) :
    (w.offset + w.remaining < target →
        BgzfWrapper.seek w (target : Int) Whence.set
          = (Except.ok (), ⟨w.offset + w.remaining, 0⟩)) ∧
      (target ≤ w.offset + w.remaining →
        BgzfWrapper.seek w (target : Int) Whence.set
          = (Except.ok (), ⟨target, w.offset + w.remaining - target⟩)) := by
  have hto : (((target : Int) - (w.offset : Int)).toNat) = target - w.offset := by
    omega
  constructor
  · intro hlt
    simp only [BgzfWrapper.seek]
    rw [if_neg (by omega), hto, seekLoop_eq]
    simp only [Prod.mk.injEq, BgzfWrapper.mk.injEq]
    refine ⟨trivial, ?_, ?_⟩ <;> omega
  · intro hle
    simp only [BgzfWrapper.seek]
    rw [if_neg (by omega), hto, seekLoop_eq]
    simp only [Prod.mk.injEq, BgzfWrapper.mk.injEq]
    refine ⟨trivial, ?_, ?_⟩ <;> omega

/-- Witness for C8 at a concrete adapter state, in both the short-stream case
and the sufficient-stream case. -/
theorem seek_forward_reaches_target_or_eof_witness :
    (5 : Nat) ≤ 20 ∧ 5 + 7 < 20 ∧
      BgzfWrapper.seek ⟨5, 7⟩ ((20 : Nat) : Int) Whence.set
        = (Except.ok (), ⟨12, 0⟩) ∧
      (10 : Nat) ≤ 5 + 7 ∧
      BgzfWrapper.seek ⟨5, 7⟩ ((10 : Nat) : Int) Whence.set
        = (Except.ok (), ⟨10, 2⟩) :=
  ⟨by norm_num, by norm_num,
    (seek_forward_reaches_target_or_eof ⟨5, 7⟩ 20 (by norm_num)).1 (by norm_num),
    by norm_num,
    (seek_forward_reaches_target_or_eof ⟨5, 7⟩ 10 (by norm_num)).2 (by norm_num)⟩

/-- C9 as written is false of the code: a child that is a directory without
an index entry is reported with the numeric size 0, not with an absent size.
In the index below the only entry sits at the path d/s, so the root's child d
has no entry, yet the listing of the root reports the pair (d, 0); the
specification-side variant reports an absent size (none) for the same child. -/
theorem list_directory_zero_size_counterexample :
    Index.get (Index.insert ⟨IndexNode.mk [] none⟩ [['d'], ['s']] ⟨1, 2, 3, 4⟩)
        [['d']] = none ∧
      list_directory
          (Index.insert ⟨IndexNode.mk [] none⟩ [['d'], ['s']] ⟨1, 2, 3, 4⟩) []
        = some [([['d']], 0)] ∧
      list_directory_absent
          (Index.insert ⟨IndexNode.mk [] none⟩ [['d'], ['s']] ⟨1, 2, 3, 4⟩) []
        = some [([['d']], none)] :=
  ⟨by decide, by decide, by decide⟩

/-- C9 (amended): when the listed path resolves to a node, list_directory
reports, for each child name of that node, the joined path together with the
size of that child's entry when the child has one, and the numeric size 0
(not an absent size) for children without entries. -/
theorem list_directory_sizes_with_zero_default (i : Index)
    (parts : List (List Char)) (t : IndexNode)
    (h : resolveParts i.root parts = some t) :
    list_directory i parts =
      some ((t.children.map Prod.fst).map (fun basename =>
        (parts ++ [basename],
          ((lookupChild t.children basename).bind IndexNode.entry).elim 0
            IndexEntry.size))) := by
  have hg : ∀ b : List Char, Index.get i (parts ++ [b])
      = (lookupChild t.children b).bind IndexNode.entry := by
    intro b
    rw [Index.get, getParts_append parts [b] i.root, h]
    cases hl : lookupChild t.children b with
    | none => simp [Option.elim, getParts, hl]
    | some c => simp [Option.elim, getParts, hl]
  have hfun : (fun basename => (parts ++ [basename],
        (Index.get i (parts ++ [basename])).elim 0 IndexEntry.size))
      = fun basename => (parts ++ [basename],
        ((lookupChild t.children basename).bind IndexNode.entry).elim 0
          IndexEntry.size) :=
    funext fun b => by rw [hg b]
  unfold list_directory Index.readdir
  rw [readdirParts_eq_resolveParts parts i.root, h]
  simp only [Option.map_some']
  rw [hfun]

/-- Witness for C9 (amended) at a concrete index whose root has one child
with an entry. -/
theorem list_directory_sizes_with_zero_default_witness :
    resolveParts
        (IndexNode.mk [(['b'], IndexNode.mk [] (some ⟨1, 2, 5, 4⟩))] none) []
      = some (IndexNode.mk [(['b'], IndexNode.mk [] (some ⟨1, 2, 5, 4⟩))] none) ∧
      list_directory
          ⟨IndexNode.mk [(['b'], IndexNode.mk [] (some ⟨1, 2, 5, 4⟩))] none⟩ []
        = some [([['b']], 5)] := by
  refine ⟨rfl, ?_⟩
  rw [list_directory_sizes_with_zero_default
    ⟨IndexNode.mk [(['b'], IndexNode.mk [] (some ⟨1, 2, 5, 4⟩))] none⟩ []
    (IndexNode.mk [(['b'], IndexNode.mk [] (some ⟨1, 2, 5, 4⟩))] none) rfl]
  decide

/-- C10: insertion is frame-preserving. First, get at every path other than
the inserted one is unchanged, so no entry at any other path is removed or
replaced. Second and third, at every path that is not an initial segment of
the inserted path (neither the inserted path itself nor one of its
ancestors), the resolved node, and with it its whole subtree, its entry or
absence of one, and its child listing, is exactly unchanged; in particular
sibling subtrees and entry-less directory nodes are preserved. Fourth, every
already existing proper ancestor of the inserted path afterwards keeps its
entry and keeps its children dict except that the binding for the next
inserted component is set, so every other child binding, name and subtree
alike, is untouched; intermediate nodes are thus created only when absent.
Fifth, in consequence, no name ever disappears from an ancestor's listing.
Sixth, the inserted path afterwards resolves to a node with the new entry and
exactly the children the node had before the insert (none when the path did
not fully exist), so the terminal node's existing children survive the entry
overwrite. Consequently inserting a directory's own entry after its
descendants, or vice versa, keeps both. -/
theorem insert_frame_preserves_others (i : Index) (parts : List (List Char))
    (e : IndexEntry) (q : List (List Char)) :
    (q ≠ parts → Index.get (Index.insert i parts e) q = Index.get i q) ∧
      (parts.take q.length ≠ q →
        resolveParts (Index.insert i parts e).root q = resolveParts i.root q) ∧
      (parts.take q.length ≠ q →
        Index.readdir (Index.insert i parts e) q = Index.readdir i q) ∧
      (∀ (k : Nat) (h : k < parts.length) (t : IndexNode),
        resolveParts i.root (parts.take k) = some t →
        ∃ sub, resolveParts (Index.insert i parts e).root (parts.take k)
          = some (IndexNode.mk
              (setChild t.children (parts.get ⟨k, h⟩) sub) t.entry)) ∧
      (∀ (k : Nat), k < parts.length → ∀ names,
        Index.readdir i (parts.take k) = some names →
        ∃ names', Index.readdir (Index.insert i parts e) (parts.take k)
          = some names' ∧ ∀ b ∈ names, b ∈ names') ∧
      resolveParts (Index.insert i parts e).root parts =
        some (IndexNode.mk
          ((resolveParts i.root parts).elim [] IndexNode.children) (some e)) :=
  ⟨fun hq => getParts_insertParts_frame parts i.root e q hq,
    fun hq => resolveParts_insertParts_frame parts i.root e q hq,
    fun hq => readdirParts_insertParts_frame parts i.root e q hq,
    fun k h t ht => resolveParts_insertParts_take_set parts i.root e k h t ht,
    fun k hk names hr =>
      readdirParts_insertParts_take_superset parts i.root e k hk names hr,
    resolveParts_insertParts_self parts i.root e⟩

/-- Witness for C10 on the example tree: inserting at the fresh path y leaves
the entry at the existing path x unchanged, leaves the entry-less directory
node d (resolved node and listing alike) unchanged, and the root's listing
still shows both x and d. -/
theorem insert_frame_preserves_others_witness :
    ([['d']] : List (List Char)) ≠ [['y']] ∧
      Index.get (Index.insert ⟨frameWitnessRoot⟩ [['y']] ⟨5, 6, 7, 8⟩) [['d']]
        = Index.get ⟨frameWitnessRoot⟩ [['d']] ∧
      ([['y']] : List (List Char)).take
          ([['d']] : List (List Char)).length ≠ [['d']] ∧
      resolveParts (Index.insert ⟨frameWitnessRoot⟩ [['y']] ⟨5, 6, 7, 8⟩).root
          [['d']]
        = resolveParts frameWitnessRoot [['d']] ∧
      Index.readdir (Index.insert ⟨frameWitnessRoot⟩ [['y']] ⟨5, 6, 7, 8⟩)
          [['d']]
        = Index.readdir ⟨frameWitnessRoot⟩ [['d']] ∧
      (0 : Nat) < ([['y']] : List (List Char)).length ∧
      Index.readdir ⟨frameWitnessRoot⟩
          (([['y']] : List (List Char)).take 0) = some [['x'], ['d']] ∧
      ∃ names', Index.readdir (Index.insert ⟨frameWitnessRoot⟩ [['y']]
            ⟨5, 6, 7, 8⟩) (([['y']] : List (List Char)).take 0)
          = some names' ∧ ∀ b ∈ ([['x'], ['d']] : List (List Char)),
            b ∈ names' :=
  ⟨by decide,
    (insert_frame_preserves_others ⟨frameWitnessRoot⟩ [['y']] ⟨5, 6, 7, 8⟩
      [['d']]).1 (by decide),
    by decide,
    (insert_frame_preserves_others ⟨frameWitnessRoot⟩ [['y']] ⟨5, 6, 7, 8⟩
      [['d']]).2.1 (by decide),
    (insert_frame_preserves_others ⟨frameWitnessRoot⟩ [['y']] ⟨5, 6, 7, 8⟩
      [['d']]).2.2.1 (by decide),
    by decide,
    by decide,
    (insert_frame_preserves_others ⟨frameWitnessRoot⟩ [['y']] ⟨5, 6, 7, 8⟩
      [['d']]).2.2.2.2.1 0 (by decide) [['x'], ['d']] (by decide)⟩
